import Mathlib

/-!
Verification of the docuverse retrieval subsystem.

This development shallowly embeds the core of the repository:

* `sanitise_table_name` (src/dv/database.py, lines 90-114): the identifier
  sanitizer, modelled on `List Char` with Python string semantics
  (regex split on runs of whitespace / underscore / hyphen, take at most
  three parts, strip, lowercase, join with underscores, prefix names that
  start with a digit).
* `save_document` and `generate_and_save_embeddings`
  (src/dv/database.py, lines 139-247): the document store, modelled as a
  list of named tables of rows.  The chunk splitter and the embedding
  service are external collaborators and enter as function parameters;
  an embedding failure is an `Option.none` result.  SQLite specifics that
  the code relies on are modelled explicitly: rowids of tables without
  AUTOINCREMENT are max-rowid-plus-one (1 for an empty table), and rows
  inserted after the failing statement of a document are never committed
  because the connection is closed without commit.
* `cosine_similarity` and `query_similarity`
  (src/dv/similarity_search.py): the similarity search engine, with
  vectors modelled as lists of real numbers.
* `QAChain.query` (src/dv/qa.py, lines 143-167): the conversational
  orchestrator, with the chain invocation as an `Except`-valued parameter.
-/

namespace Docuverse

/- ===================================================================
   Identifier sanitizer: sanitise_table_name (database.py lines 90-114)
   =================================================================== -/

/-- Python `\s` for the ASCII range: the characters stripped by
`str.strip()` and matched by the whitespace part of the split pattern. -/
def pyIsSpace (c : Char) : Bool :=
  c = ' ' || c = '\t' || c = '\n' || c = '\x0d' || c = '\x0b' || c = '\x0c'

/-- Character class of the split pattern `[\s_-]+` in `sanitise_table_name`. -/
def isSep (c : Char) : Bool :=
  pyIsSpace c || c = '_' || c = '-'

/-- Python `str.isdigit` restricted to ASCII digits. -/
def pyIsDigit (c : Char) : Bool :=
  48 ≤ c.toNat && c.toNat ≤ 57

/-- Python `str.lower` on one character, for the ASCII letters. -/
def pyToLower (c : Char) : Char :=
  if h : 65 ≤ c.toNat ∧ c.toNat ≤ 90 then
    Char.ofNatAux (c.toNat + 32) (Or.inl (by omega))
  else c

/-- Python `str.strip()`: drop whitespace from both ends. -/
def pystrip (l : List Char) : List Char :=
  ((l.dropWhile pyIsSpace).reverse.dropWhile pyIsSpace).reverse

/-- Worker for `re.split` on a character class with `+`: `acc` holds the
current token (reversed) and `skipping` is true while consuming a
separator run. -/
def splitRunsAux (p : Char → Bool) : List Char → List Char → Bool → List (List Char)
  | [], acc, skipping => if skipping then [[]] else [acc.reverse]
  | c :: cs, acc, skipping =>
    if p c then
      if skipping then splitRunsAux p cs [] true
      else acc.reverse :: splitRunsAux p cs [] true
    else splitRunsAux p cs (c :: (if skipping then [] else acc)) false

/-- Python `re.split(r"[\s_-]+", s)` semantics: maximal separator runs are
collapsed, with an empty leading (trailing) token when the string starts
(ends) with a separator. -/
def splitRuns (p : Char → Bool) (l : List Char) : List (List Char) :=
  splitRunsAux p l [] false

/-- The list comprehension of `sanitise_table_name`: take at most three raw
parts, keep those with nonempty `strip()`, and lowercase them. -/
def sanitiseParts (s : List Char) : List (List Char) :=
  ((splitRuns isSep s).take 3).filterMap fun part =>
    if pystrip part = [] then none else some ((pystrip part).map pyToLower)

/-- Python `"_".join(parts)`. -/
def joinUnderscore : List (List Char) → List Char
  | [] => []
  | [q] => q
  | q :: qs => q ++ '_' :: joinUnderscore qs

/-- The joined name before the leading-digit check. -/
def sanitiseCore (s : List Char) : List Char :=
  joinUnderscore (sanitiseParts s)

/-- `sanitise_table_name` (database.py lines 90-114): split on runs of
whitespace, hyphens and underscores, keep at most the first three nonempty
parts lowercased, join with underscores, and prefix with `doc_` when the
result starts with a digit. -/
def sanitise_table_name (s : List Char) : List Char :=
  match sanitiseCore s with
  | [] => []
  | c :: cs => if pyIsDigit c then 'd' :: 'o' :: 'c' :: '_' :: (c :: cs) else c :: cs

/-- String-level wrapper of the sanitizer. -/
def sanitiseStr (s : String) : String :=
  ⟨sanitise_table_name s.toList⟩

example : sanitise_table_name ("1 2 3").toList = ("doc_1_2_3").toList := by decide
example : sanitise_table_name ("doc_1_2_3").toList = ("doc_1_2").toList := by decide
example : sanitise_table_name ("My-Book Title V2").toList = ("my_book_title").toList := by decide
example : sanitise_table_name ("  hello  world ").toList = ("hello_world").toList := by decide

/- ========================= character lemmas ========================= -/

theorem toNat_ofNatAux (n : Nat) (h : n.isValidChar) : (Char.ofNatAux n h).toNat = n := by
  simp [Char.ofNatAux, Char.toNat, UInt32.toNat]

theorem char_eq_of_toNat {c d : Char} (h : c.toNat = d.toNat) : c = d := by
  have hc := @Char.ofNat_toNat c
  rw [← hc, h, Char.ofNat_toNat]

theorem pyToLower_of_upper (c : Char) (h : 65 ≤ c.toNat ∧ c.toNat ≤ 90) :
    (pyToLower c).toNat = c.toNat + 32 := by
  rw [pyToLower, dif_pos h]; exact toNat_ofNatAux _ _

theorem pyToLower_of_not_upper (c : Char) (h : ¬(65 ≤ c.toNat ∧ c.toNat ≤ 90)) :
    pyToLower c = c := by
  rw [pyToLower, dif_neg h]

theorem pyToLower_idem (c : Char) : pyToLower (pyToLower c) = pyToLower c := by
  by_cases h : 65 ≤ c.toNat ∧ c.toNat ≤ 90
  · apply pyToLower_of_not_upper
    rw [pyToLower_of_upper c h]
    omega
  · rw [pyToLower_of_not_upper c h, pyToLower_of_not_upper c h]

theorem isSep_false_of_toNat (c : Char) (h1 : 97 ≤ c.toNat) :
    isSep c = false := by
  have hne : ∀ d : Char, d.toNat < 97 → ¬(c = d) := by
    intro d hd he
    rw [he] at h1
    omega
  simp [isSep, pyIsSpace, hne ' ' (by decide), hne '\t' (by decide),
    hne '\n' (by decide), hne '\x0d' (by decide), hne '\x0b' (by decide),
    hne '\x0c' (by decide), hne '_' (by decide), hne '-' (by decide)]

theorem isSep_pyToLower (c : Char) (h : isSep c = false) : isSep (pyToLower c) = false := by
  by_cases hu : 65 ≤ c.toNat ∧ c.toNat ≤ 90
  · have := pyToLower_of_upper c hu
    exact isSep_false_of_toNat _ (by omega)
  · rw [pyToLower_of_not_upper c hu]; exact h

theorem pyIsSpace_false_of_isSep {c : Char} (h : isSep c = false) : pyIsSpace c = false := by
  simp only [isSep, Bool.or_eq_false_iff] at h
  exact h.1.1

/- ========================= split lemmas ========================= -/

theorem splitRunsAux_tokens_nonsep (p : Char → Bool) :
    ∀ (l acc : List Char) (skipping : Bool), (∀ c ∈ acc, p c = false) →
      ∀ t ∈ splitRunsAux p l acc skipping, ∀ c ∈ t, p c = false := by
  intro l
  induction l with
  | nil =>
    intro acc skipping hacc t ht c hc
    simp only [splitRunsAux] at ht
    by_cases hs : skipping
    · simp [hs] at ht
      simp [ht] at hc
    · simp [hs] at ht
      subst ht
      exact hacc c (List.mem_reverse.mp hc)
  | cons d cs ih =>
    intro acc skipping hacc t ht c hc
    simp only [splitRunsAux] at ht
    by_cases hd : p d
    · by_cases hs : skipping
      · simp [hd, hs] at ht
        exact ih [] true (by simp) t ht c hc
      · simp [hd, hs] at ht
        rcases ht with ht | ht
        · subst ht
          exact hacc c (List.mem_reverse.mp hc)
        · exact ih [] true (by simp) t ht c hc
    · simp only [hd, if_false, Bool.false_eq_true] at ht
      refine ih _ false ?_ t ht c hc
      intro e he
      by_cases hs : skipping
      · simp [hs] at he
        subst he
        simpa using hd
      · simp [hs] at he
        rcases he with he | he
        · subst he; simpa using hd
        · exact hacc e he

theorem splitRunsAux_append_nonsep (p : Char → Bool) :
    ∀ (q rest acc : List Char), (∀ c ∈ q, p c = false) →
      splitRunsAux p (q ++ rest) acc false = splitRunsAux p rest (q.reverse ++ acc) false := by
  intro q
  induction q with
  | nil => intro rest acc _; simp
  | cons d ds ih =>
    intro rest acc hq
    have hd : p d = false := hq d (by simp)
    have hstep : splitRunsAux p (d :: (ds ++ rest)) acc false
        = splitRunsAux p (ds ++ rest) (d :: acc) false := by
      simp [splitRunsAux, hd]
    rw [List.cons_append, hstep, ih rest (d :: acc) (fun c hc => hq c (by simp [hc]))]
    simp

theorem splitRuns_of_nonsep (p : Char → Bool) (q : List Char) (hq : ∀ c ∈ q, p c = false) :
    splitRuns p q = [q] := by
  have h := splitRunsAux_append_nonsep p q [] [] hq
  simp only [List.append_nil] at h
  rw [splitRuns, h]
  simp [splitRunsAux]

theorem splitRunsAux_skip_head (p : Char → Bool) (c : Char) (cs : List Char)
    (h : p c = false) :
    splitRunsAux p (c :: cs) [] true = splitRunsAux p (c :: cs) [] false := by
  simp [splitRunsAux, h]

theorem joinUnderscore_exists_append (r : List Char) (qs : List (List Char)) :
    ∃ X, joinUnderscore (r :: qs) = r ++ X := by
  cases qs with
  | nil => exact ⟨[], by simp [joinUnderscore]⟩
  | cons t ts => exact ⟨'_' :: joinUnderscore (t :: ts), rfl⟩

theorem splitRuns_joinUnderscore (P : List (List Char))
    (hP : ∀ q ∈ P, q ≠ [] ∧ ∀ c ∈ q, isSep c = false) (hne : P ≠ []) :
    splitRuns isSep (joinUnderscore P) = P := by
  induction P with
  | nil => exact absurd rfl hne
  | cons q P' ih =>
    cases P' with
    | nil =>
      simp only [joinUnderscore]
      exact splitRuns_of_nonsep isSep q (hP q (by simp)).2
    | cons r qs =>
      have hq := hP q (by simp)
      have hr := hP r (by simp)
      have hjoin : joinUnderscore (q :: r :: qs) = q ++ '_' :: joinUnderscore (r :: qs) := rfl
      rw [splitRuns, hjoin, splitRunsAux_append_nonsep isSep q _ [] hq.2, List.append_nil]
      have hsep : isSep '_' = true := by decide
      have hstep : splitRunsAux isSep ('_' :: joinUnderscore (r :: qs)) q.reverse false
          = q.reverse.reverse :: splitRunsAux isSep (joinUnderscore (r :: qs)) [] true := by
        simp [splitRunsAux, hsep]
      rw [hstep, List.reverse_reverse]
      obtain ⟨X, hX⟩ := joinUnderscore_exists_append r qs
      obtain ⟨rc, rtl, hrc⟩ : ∃ rc rtl, r = rc :: rtl := by
        cases r with
        | nil => exact absurd rfl hr.1
        | cons a b => exact ⟨a, b, rfl⟩
      have hhead : isSep rc = false := hr.2 rc (by rw [hrc]; simp)
      have hcons : joinUnderscore (r :: qs) = rc :: (rtl ++ X) := by
        rw [hX, hrc]; simp
      rw [hcons, splitRunsAux_skip_head isSep rc (rtl ++ X) hhead, ← hcons]
      have hrec := ih (fun x hx => hP x (by simp [hx])) (by simp)
      rw [splitRuns] at hrec
      rw [hrec]

/- ================= stability of the sanitized parts ================= -/

theorem filterMap_id_of_some {α : Type} (f : α → Option α) (l : List α)
    (h : ∀ x ∈ l, f x = some x) : l.filterMap f = l := by
  induction l with
  | nil => rfl
  | cons a l ih =>
    rw [List.filterMap_cons, h a (by simp), ih (fun x hx => h x (by simp [hx]))]

theorem dropWhile_eq_self_of_false {p : Char → Bool} {l : List Char}
    (h : ∀ c ∈ l, p c = false) : l.dropWhile p = l := by
  cases l with
  | nil => rfl
  | cons a l => simp [List.dropWhile_cons, h a (by simp)]

theorem pystrip_eq_self {l : List Char} (h : ∀ c ∈ l, pyIsSpace c = false) : pystrip l = l := by
  rw [pystrip, dropWhile_eq_self_of_false h,
    dropWhile_eq_self_of_false (fun c hc => h c (List.mem_reverse.mp hc)),
    List.reverse_reverse]

theorem map_pyToLower_eq_self {l : List Char} (h : ∀ c ∈ l, pyToLower c = c) :
    l.map pyToLower = l := by
  induction l with
  | nil => rfl
  | cons a l ih => simp [h a (by simp), ih (fun c hc => h c (by simp [hc]))]

theorem sanitiseParts_spec (s : List Char) :
    ∀ q ∈ sanitiseParts s, q ≠ [] ∧ ∀ c ∈ q, isSep c = false ∧ pyToLower c = c := by
  intro q hq
  rw [sanitiseParts] at hq
  obtain ⟨part, hpart, hfq⟩ := List.mem_filterMap.mp hq
  by_cases hsp : pystrip part = []
  · rw [if_pos hsp] at hfq
    exact absurd hfq (by simp)
  · rw [if_neg hsp] at hfq
    have hq' : q = (pystrip part).map pyToLower := (Option.some.inj hfq).symm
    have htok : ∀ c ∈ part, isSep c = false := by
      have hmem : part ∈ splitRuns isSep s := List.mem_of_mem_take hpart
      exact fun c hc =>
        splitRunsAux_tokens_nonsep isSep s [] false (by simp) part hmem c hc
    have hsub : ∀ c ∈ pystrip part, isSep c = false := by
      intro c hc
      apply htok
      rw [pystrip] at hc
      have hc1 := List.mem_reverse.mp hc
      have hc2 := (List.dropWhile_sublist pyIsSpace).subset hc1
      have hc3 := List.mem_reverse.mp hc2
      exact (List.dropWhile_sublist pyIsSpace).subset hc3
    constructor
    · rw [hq']
      simp only [ne_eq, List.map_eq_nil_iff]
      exact hsp
    · intro c hc
      rw [hq'] at hc
      obtain ⟨c', hc', rfl⟩ := List.mem_map.mp hc
      exact ⟨isSep_pyToLower c' (hsub c' hc'), pyToLower_idem c'⟩

theorem sanitiseParts_length_le (s : List Char) : (sanitiseParts s).length ≤ 3 := by
  rw [sanitiseParts]
  exact le_trans (List.length_filterMap_le _ _) (List.length_take_le _ _)

theorem sanitiseParts_core (s : List Char) :
    sanitiseParts (sanitiseCore s) = sanitiseParts s := by
  by_cases hemp : sanitiseParts s = []
  · rw [sanitiseCore, hemp]
    decide
  · have hspec := sanitiseParts_spec s
    rw [sanitiseCore, sanitiseParts,
      splitRuns_joinUnderscore (sanitiseParts s)
        (fun q hq => ⟨(hspec q hq).1, fun c hc => ((hspec q hq).2 c hc).1⟩) hemp,
      List.take_of_length_le (sanitiseParts_length_le s)]
    apply filterMap_id_of_some
    intro q hq
    have h1 := hspec q hq
    have hstrip : pystrip q = q :=
      pystrip_eq_self (fun c hc => pyIsSpace_false_of_isSep ((h1.2 c hc).1))
    rw [hstrip, if_neg h1.1, map_pyToLower_eq_self (fun c hc => (h1.2 c hc).2)]

theorem sanitiseCore_core (s : List Char) :
    sanitiseCore (sanitiseCore s) = sanitiseCore s := by
  show joinUnderscore (sanitiseParts (sanitiseCore s)) = sanitiseCore s
  rw [sanitiseParts_core]
  rfl

theorem sanitise_eq_core_or_prefixed (s : List Char) :
    sanitise_table_name s = sanitiseCore s ∨
      (∃ c cs, sanitiseCore s = c :: cs ∧ pyIsDigit c = true ∧
        sanitise_table_name s = 'd' :: 'o' :: 'c' :: '_' :: sanitiseCore s) := by
  have hdef : sanitise_table_name s = match sanitiseCore s with
      | [] => []
      | c :: cs => if pyIsDigit c then 'd' :: 'o' :: 'c' :: '_' :: (c :: cs) else c :: cs := rfl
  cases hc : sanitiseCore s with
  | nil => left; rw [hdef, hc]
  | cons c cs =>
    by_cases hd : pyIsDigit c = true
    · right
      exact ⟨c, cs, rfl, hd, by rw [hdef, hc]; simp [hd]⟩

    · left
      rw [hdef, hc]
      simp only [Bool.not_eq_true] at hd
      simp [hd]

theorem sanitiseCore_head_nonsep (s : List Char) {c : Char} {cs : List Char}
    (hc : sanitiseCore s = c :: cs) : isSep c = false := by
  have hspec := sanitiseParts_spec s
  cases hP : sanitiseParts s with
  | nil =>
    rw [sanitiseCore, hP] at hc
    simp [joinUnderscore] at hc
  | cons q P' =>
    obtain ⟨X, hX⟩ := joinUnderscore_exists_append q P'
    rw [sanitiseCore, hP, hX] at hc
    have hq := hspec q (by rw [hP]; simp)
    cases hq' : q with
    | nil => exact absurd hq' hq.1
    | cons a q'' =>
      rw [hq'] at hc
      have hac : a = c := (List.cons.injEq _ _ _ _ ▸ hc).1
      exact hac ▸ (hq.2 a (by rw [hq']; simp)).1

theorem sanitise_prefixed_idem (s : List Char) {c : Char} {cs : List Char}
    (hc : sanitiseCore s = c :: cs)
    (hlen : (sanitiseParts s).length ≤ 2) :
    sanitise_table_name ('d' :: 'o' :: 'c' :: '_' :: sanitiseCore s)
      = 'd' :: 'o' :: 'c' :: '_' :: sanitiseCore s := by
  have hspec := sanitiseParts_spec s
  have hPne : sanitiseParts s ≠ [] := by
    intro h
    rw [sanitiseCore, h] at hc
    simp [joinUnderscore] at hc
  have hdoc : ∀ ch ∈ (['d', 'o', 'c'] : List Char), isSep ch = false := by decide
  have hhead : isSep c = false := sanitiseCore_head_nonsep s hc
  have hsplit : splitRuns isSep ('d' :: 'o' :: 'c' :: '_' :: sanitiseCore s)
      = ['d', 'o', 'c'] :: sanitiseParts s := by
    have heq : ('d' :: 'o' :: 'c' :: '_' :: sanitiseCore s)
        = ['d', 'o', 'c'] ++ '_' :: sanitiseCore s := rfl
    rw [splitRuns, heq, splitRunsAux_append_nonsep isSep _ _ [] hdoc, List.append_nil]
    have hu : isSep '_' = true := by decide
    have hstep : splitRunsAux isSep ('_' :: sanitiseCore s) (['d', 'o', 'c'].reverse) false
        = ['d', 'o', 'c'].reverse.reverse :: splitRunsAux isSep (sanitiseCore s) [] true := by
      simp [splitRunsAux, hu]
    rw [hstep, List.reverse_reverse, hc, splitRunsAux_skip_head isSep c cs hhead, ← hc]
    have hrec := splitRuns_joinUnderscore (sanitiseParts s)
      (fun q hq => ⟨(hspec q hq).1, fun ch hch => ((hspec q hq).2 ch hch).1⟩) hPne
    rw [splitRuns] at hrec
    rw [sanitiseCore, hrec]
  have hparts : sanitiseParts ('d' :: 'o' :: 'c' :: '_' :: sanitiseCore s)
      = ['d', 'o', 'c'] :: sanitiseParts s := by
    rw [sanitiseParts, hsplit,
      List.take_of_length_le (by simpa using Nat.add_le_add_right hlen 1)]
    apply filterMap_id_of_some
    intro q hq
    rcases List.mem_cons.mp hq with hq | hq
    · subst hq; decide
    · have h1 := hspec q hq
      have hstrip : pystrip q = q :=
        pystrip_eq_self (fun ch hch => pyIsSpace_false_of_isSep ((h1.2 ch hch).1))
      rw [hstrip, if_neg h1.1, map_pyToLower_eq_self (fun ch hch => (h1.2 ch hch).2)]
  have hcore : sanitiseCore ('d' :: 'o' :: 'c' :: '_' :: sanitiseCore s)
      = 'd' :: 'o' :: 'c' :: '_' :: sanitiseCore s := by
    rw [sanitiseCore, hparts]
    cases hP : sanitiseParts s with
    | nil => exact absurd hP hPne
    | cons q P' =>
      show ['d', 'o', 'c'] ++ '_' :: joinUnderscore (q :: P')
          = 'd' :: 'o' :: 'c' :: '_' :: sanitiseCore s
      rw [sanitiseCore, hP]
      rfl
  have hdef : sanitise_table_name ('d' :: 'o' :: 'c' :: '_' :: sanitiseCore s)
      = match sanitiseCore ('d' :: 'o' :: 'c' :: '_' :: sanitiseCore s) with
        | [] => []
        | c :: cs => if pyIsDigit c then 'd' :: 'o' :: 'c' :: '_' :: (c :: cs) else c :: cs := rfl
  rw [hdef, hcore]
  have hdnotdigit : pyIsDigit 'd' = false := by decide
  simp [hdnotdigit]

theorem sanitise_core_idem (s : List Char)
    (h : sanitise_table_name s = sanitiseCore s) :
    sanitise_table_name (sanitise_table_name s) = sanitise_table_name s := by
  rw [h]
  have hdef : sanitise_table_name (sanitiseCore s)
      = match sanitiseCore (sanitiseCore s) with
        | [] => []
        | c :: cs => if pyIsDigit c then 'd' :: 'o' :: 'c' :: '_' :: (c :: cs) else c :: cs := rfl
  rw [hdef, sanitiseCore_core]
  cases hc : sanitiseCore s with
  | nil => rfl
  | cons c cs =>
    by_cases hdig : pyIsDigit c = true
    · have hdef2 : sanitise_table_name s
          = match sanitiseCore s with
            | [] => []
            | c :: cs =>
              if pyIsDigit c then 'd' :: 'o' :: 'c' :: '_' :: (c :: cs) else c :: cs := rfl
      rw [hdef2, hc] at h
      simp only [hdig, if_true] at h
      have hlen := congrArg List.length h
      simp only [List.length_cons] at hlen
      omega
    · simp only [Bool.not_eq_true] at hdig
      simp [hdig]

/-- C3 (amended): `sanitise_table_name` is deterministic, and it is idempotent
whenever either the `doc_` prefix was not applied (the sanitized name is the
underscore-join itself) or the name has at most two parts.  (Unrestricted
idempotence is refuted by `sanitise_idem_cex`: a digit-leading name with three
parts gains a `doc_` prefix whose `doc` token consumes a word slot on the
second pass.) -/
theorem sanitise_det_idem_amended (s t : List Char) :
    (s = t → sanitise_table_name s = sanitise_table_name t) ∧
    ((sanitise_table_name s = sanitiseCore s ∨ (sanitiseParts s).length ≤ 2) →
      sanitise_table_name (sanitise_table_name s) = sanitise_table_name s) := by
  constructor
  · intro h; rw [h]
  · intro h
    rcases sanitise_eq_core_or_prefixed s with hcase | ⟨c, cs, hc, hdig, hpre⟩
    · exact sanitise_core_idem s hcase
    · rcases h with h | hlen
      · exact sanitise_core_idem s h
      · rw [hpre]
        exact sanitise_prefixed_idem s hc hlen

/-- C3 counterexample: the sanitizer is not idempotent as claimed.  On the
name `1 2 3` the first pass yields `doc_1_2_3` and the second pass yields
`doc_1_2`, so `sanitise(sanitise(D)) ≠ sanitise(D)`. -/
theorem sanitise_idem_cex :
    ¬(sanitise_table_name (sanitise_table_name (("1 2 3").toList))
        = sanitise_table_name (("1 2 3").toList)) := by decide

/-- Witness for `sanitise_det_idem_amended` at the concrete name `a b`. -/
theorem sanitise_det_idem_amended_witness :
    (sanitise_table_name (("a b").toList) = sanitise_table_name (("a b").toList)) ∧
    sanitise_table_name (sanitise_table_name (("a b").toList))
      = sanitise_table_name (("a b").toList) :=
  ⟨(sanitise_det_idem_amended (("a b").toList) (("a b").toList)).1 rfl,
    (sanitise_det_idem_amended (("a b").toList) (("a b").toList)).2 (Or.inl (by decide))⟩

/- ===================================================================
   Document store: save_document and generate_and_save_embeddings
   (database.py lines 139-247)

   A table row has the four columns of `create_table_for_document`.
   Embedding vectors have components in a parameter type `α` (the real
   code stores the comma-joined decimal text of the vector; the byte
   payload and the vector are identified here, with `none` for SQL NULL
   and `[]` for the empty payload `b""`).
   =================================================================== -/

structure Row (α : Type) where
  id : Nat
  raw_text : Option String
  chunk_text : Option String
  embeddings : Option (List α)
deriving DecidableEq

/-- A table: the `PRAGMA table_info` column set (only the two columns
`query_similarity` checks for are tracked) plus the rows.
`create_table_for_document` always creates both columns. -/
structure Table (α : Type) where
  hasChunkText : Bool
  hasEmbeddings : Bool
  rows : List (Row α)
deriving DecidableEq

/-- The database: `sqlite_master` order of tables, each with its name. -/
abbrev DB (α : Type) := List (String × Table α)

/-- SQLite rowid assignment for an INTEGER PRIMARY KEY table without
AUTOINCREMENT: one more than the largest rowid, 1 for an empty table. -/
def nextRowId {α : Type} (rows : List (Row α)) : Nat :=
  (rows.map Row.id).foldr max 0 + 1

/-- Replace the named table, leaving its column set unchanged
(`create_table_for_document` does nothing when the table exists). -/
def updateTable {α : Type} (db : DB α) (name : String) (f : Table α → Table α) : DB α :=
  db.map fun e => if e.1 = name then (e.1, f e.2) else e

/-- The clear-then-insert step of `save_document` (database.py lines
163-175): `DELETE` all rows when any exist, then `INSERT` the placeholder
row, whose rowid is assigned by SQLite. -/
def clearedInsert {α : Type} (text : String) (t : Table α) : Table α :=
  ⟨t.hasChunkText, t.hasEmbeddings,
    (if t.rows.length > 0 then [] else t.rows)
      ++ [⟨nextRowId (if t.rows.length > 0 then [] else t.rows), some text, none, none⟩]⟩

/-- `create_table_for_document` (database.py lines 51-86): sanitises its
argument AGAIN (line 60), checks `sqlite_master` for that re-sanitised
name, and creates the table (with all four columns) when absent.  `none`
models the exception raised by `CREATE TABLE` on an empty identifier
(identifier-syntax failures beyond the empty name are not modelled); the
caller catches it. -/
def create_table_for_document {α : Type} (db : DB α) (table_name : String) :
    Option (DB α) :=
  match db.lookup (sanitiseStr table_name) with
  | some _ => some db
  | none =>
    if sanitiseStr table_name = "" then none
    else some (db ++ [(sanitiseStr table_name, ⟨true, true, []⟩)])

/-- `save_document` (database.py lines 139-181): sanitise the name once
(line 157), call `create_table_for_document` on the sanitised name — which
sanitises it a second time (line 60), so a non-fixed-point name creates a
differently-named table — then run `SELECT COUNT(*)`, `DELETE` and the
placeholder `INSERT` against the once-sanitised name.  When that table
does not exist the `COUNT` raises, the exception is caught, and the
function returns False with no placeholder inserted (the created table,
already committed, persists). -/
def save_document {α : Type} (db : DB α) (table_name : String) (text : String) :
    Bool × DB α :=
  match create_table_for_document db (sanitiseStr table_name) with
  | none => (false, db)
  | some db1 =>
    match db1.lookup (sanitiseStr table_name) with
    | none => (false, db1)
    | some _ =>
      (true, updateTable db1 (sanitiseStr table_name) (clearedInsert text))

/-- The computed id of the final chunk row (database.py line 230). -/
def new_id (doc_id i : Nat) : Nat :=
  doc_id * 10000 + i + 1

/-- Rows inserted for one document, from chunk index `i` on. -/
def chunkRowsAux {α : Type} (doc_id : Nat) (text : String) (i : Nat) :
    List (String × List α) → List (Row α)
  | [] => []
  | cv :: rest =>
    ⟨new_id doc_id i, if i = 0 then some text else none, some cv.1, some cv.2⟩
      :: chunkRowsAux doc_id text (i + 1) rest

/-- The rows inserted for one document (database.py lines 220-235): one row
per chunk, carrying the computed id, the chunk text and its embedding; the
first chunk's row also keeps the document's raw text (line 231). -/
def chunkRows {α : Type} (doc_id : Nat) (text : String)
    (chunks : List String) (vecs : List (List α)) : List (Row α) :=
  chunkRowsAux doc_id text 0 (chunks.zip vecs)

/-- Embed every chunk of one document; the service call
`embeddings.embed_query` may fail, which aborts the document with the
partial inserts never committed. -/
def embedAll {α : Type} (embed : String → Option (List α)) :
    List String → Option (List (List α))
  | [] => some []
  | c :: cs =>
    match embed c, embedAll embed cs with
    | some v, some vs => some (v :: vs)
    | _, _ => none

/-- The rows of a table that `SELECT id, raw_text ... WHERE embeddings IS
NULL` returns (database.py line 209), snapshotted before any insert. -/
def docsOf {α : Type} (rows : List (Row α)) : List (Nat × Option String) :=
  (rows.filter fun r => r.embeddings.isNone).map fun r => (r.id, r.raw_text)

/-- Process the pending documents of one table in order (database.py lines
212-240).  A document with NULL or empty raw text is skipped (`if text:`).
Otherwise its chunks are embedded and inserted and the placeholder row is
deleted, all committed per document; the first embedding failure raises,
so the whole pass stops with that document's inserts rolled back (the
caller closes the connection without commit). -/
def processDocs {α : Type} (split : String → List String)
    (embed : String → Option (List α)) :
    List (Nat × Option String) → List (Row α) → Bool × List (Row α)
  | [], rows => (true, rows)
  | (doc_id, otext) :: docs, rows =>
    match otext with
    | none => processDocs split embed docs rows
    | some text =>
      if text = "" then processDocs split embed docs rows
      else
        match embedAll embed (split text) with
        | none => (false, rows)
        | some vecs =>
          processDocs split embed docs
            ((rows ++ chunkRows doc_id text (split text) vecs).filter
              fun r => r.id ≠ doc_id)

/-- Worker of `generate_and_save_embeddings`: tables in `sqlite_master`
order; an exception in one table stops the pass, leaving earlier tables
(and earlier committed documents of the failing table) processed and the
rest untouched. -/
def generateGo {α : Type} (split : String → List String)
    (embed : String → Option (List α)) : DB α → Bool × DB α
  | [] => (true, [])
  | (n, t) :: rest =>
    let pr := processDocs split embed (docsOf t.rows) t.rows
    if pr.1 then
      let r := generateGo split embed rest
      (r.1, (n, ⟨t.hasChunkText, t.hasEmbeddings, pr.2⟩) :: r.2)
    else
      (false, (n, ⟨t.hasChunkText, t.hasEmbeddings, pr.2⟩) :: rest)

/-- `generate_and_save_embeddings` (database.py lines 184-247): chunk and
embed every pending document of every table; return the success flag
(False as soon as any exception is raised) together with the committed
database state. -/
def generate_and_save_embeddings {α : Type} (split : String → List String)
    (embed : String → Option (List α)) (db : DB α) : Bool × DB α :=
  generateGo split embed db

/- Concrete instances used by the counterexamples and witnesses. -/

/-- A degenerate chunk splitter: the whole document is one chunk. -/
def exSplit : String → List String := fun s => [s]

/-- An embedding service that always answers with the vector `[1]`. -/
def exEmbed : String → Option (List Int) := fun _ => some [1]

/-- An embedding service that fails on the text `x` and answers elsewhere. -/
def exEmbedFail : String → Option (List Int) := fun s => if s = "x" then none else some [1]

/-- One collection holding the placeholder row of a saved document. -/
def exDB1 : DB Int := [("t", ⟨true, true, [⟨1, some "hello", none, none⟩]⟩)]

/-- Two collections, each holding the placeholder row of a saved document;
embedding the first one's text `x` fails under `exEmbedFail`. -/
def exDB2 : DB Int :=
  [("a", ⟨true, true, [⟨1, some "x", none, none⟩]⟩),
   ("b", ⟨true, true, [⟨1, some "y", none, none⟩]⟩)]

/- ===================== C4: the identifier scheme ===================== -/

/-- C4: the final chunk row of placeholder `p` and chunk index `i` gets id
`p * 10000 + i + 1`; distinct (placeholder, index) pairs with indices below
10000 get distinct ids; the id is strictly above its placeholder id; and no
computed id can equal a sequence-generated placeholder id `q ≤ 10000`. -/
theorem new_id_scheme (p i p' i' q : Nat) :
    new_id p i = p * 10000 + i + 1 ∧
    (i < 10000 → i' < 10000 → (p, i) ≠ (p', i') → new_id p i ≠ new_id p' i') ∧
    (1 ≤ p → p < new_id p i) ∧
    (1 ≤ p → q ≤ 10000 → new_id p i ≠ q) := by
  refine ⟨rfl, ?_, ?_, ?_⟩
  · intro h1 h2 hne heq
    rw [new_id, new_id] at heq
    have hpi : p = p' ∧ i = i' := by omega
    exact hne (by rw [hpi.1, hpi.2])
  · intro hp
    rw [new_id]
    omega
  · intro hp hq heq
    rw [new_id] at heq
    omega

/-- Witness for `new_id_scheme` at placeholder 1 and chunk indices 0, 1. -/
theorem new_id_scheme_witness :
    new_id 1 0 = 1 * 10000 + 0 + 1 ∧ new_id 1 0 ≠ new_id 1 1 ∧
    1 < new_id 1 0 ∧ new_id 1 0 ≠ 1 :=
  ⟨(new_id_scheme 1 0 1 1 1).1,
   (new_id_scheme 1 0 1 1 1).2.1 (by decide) (by decide) (by decide),
   (new_id_scheme 1 0 1 1 1).2.2.1 (by decide),
   (new_id_scheme 1 0 1 1 1).2.2.2 (by decide) (by decide)⟩

/- ================== helper lemmas on the ingestion pass ================== -/

theorem embedAll_length {α : Type} (embed : String → Option (List α)) :
    ∀ (cs : List String) (vs : List (List α)),
      embedAll embed cs = some vs → vs.length = cs.length := by
  intro cs
  induction cs with
  | nil =>
    intro vs h
    simp only [embedAll, Option.some.injEq] at h
    rw [← h]
    rfl
  | cons c cs ih =>
    intro vs h
    simp only [embedAll] at h
    cases he : embed c with
    | none => rw [he] at h; simp at h
    | some v =>
      rw [he] at h
      cases hr : embedAll embed cs with
      | none => rw [hr] at h; simp at h
      | some vs' =>
        rw [hr] at h
        simp only [Option.some.injEq] at h
        rw [← h]
        simp [ih vs' hr]

theorem chunkRowsAux_length {α : Type} (p : Nat) (text : String) :
    ∀ (i : Nat) (cvs : List (String × List α)),
      (chunkRowsAux p text i cvs).length = cvs.length := by
  intro i cvs
  induction cvs generalizing i with
  | nil => rfl
  | cons cv rest ih => simp [chunkRowsAux, ih]

theorem chunkRowsAux_mem {α : Type} (p : Nat) (text : String) :
    ∀ (j : Nat) (cvs : List (String × List α)) (r : Row α),
      r ∈ chunkRowsAux p text j cvs →
      ∃ i cv, j ≤ i ∧ cv ∈ cvs ∧
        r = ⟨new_id p i, if i = 0 then some text else none, some cv.1, some cv.2⟩ := by
  intro j cvs
  induction cvs generalizing j with
  | nil => intro r hr; simp [chunkRowsAux] at hr
  | cons cv rest ih =>
    intro r hr
    simp only [chunkRowsAux, List.mem_cons] at hr
    rcases hr with hr | hr
    · exact ⟨j, cv, le_refl _, by simp, hr⟩
    · obtain ⟨i, cv', hi, hcv, hr'⟩ := ih (j + 1) r hr
      exact ⟨i, cv', by omega, by simp [hcv], hr'⟩

theorem chunkRows_filter {α : Type} (p : Nat) (text : String)
    (chunks : List String) (vecs : List (List α)) :
    (chunkRows p text chunks vecs).filter (fun r => r.id ≠ p)
      = chunkRows p text chunks vecs := by
  rw [List.filter_eq_self]
  intro r hr
  obtain ⟨i, cv, _, _, hreq⟩ := chunkRowsAux_mem p text 0 _ r hr
  rw [hreq]
  simp only [decide_eq_true_eq, ne_eq, new_id]
  omega

theorem processDocs_single_placeholder {α : Type} (split : String → List String)
    (embed : String → Option (List α)) (p : Nat) (text : String) (htext : ¬(text = ""))
    (vecs : List (List α)) (hv : embedAll embed (split text) = some vecs) :
    processDocs split embed [(p, some text)] [⟨p, some text, none, none⟩]
      = (true, chunkRows p text (split text) vecs) := by
  simp only [processDocs, htext, if_false, hv]
  have hfil : (([⟨p, some text, none, none⟩] : List (Row α))
        ++ chunkRows p text (split text) vecs).filter (fun r => r.id ≠ p)
      = chunkRows p text (split text) vecs := by
    rw [List.singleton_append, List.filter_cons]
    simp only [decide_eq_true_eq, ne_eq]
    rw [if_neg (by simp), chunkRows_filter]
  rw [hfil]

/- =========================== C1 =========================== -/

/-- C1 (amended): when `generate_and_save_embeddings` succeeds on a database
of collections each holding the single placeholder row of a saved document
with nonempty raw text, every collection afterwards holds exactly one row
per chunk, each row carrying a chunk text and an embedding, with the
placeholder row deleted — but the first chunk's row retains the document's
raw text (database.py line 231), so one row per collection still holds
`raw_text` whenever the document produced at least one chunk. -/
theorem generate_success_final_rows {α : Type} (split : String → List String)
    (embed : String → Option (List α)) (db : DB α)
    (hdb : ∀ e ∈ db, ∃ p text, ¬(text = "") ∧ e.2.rows = [⟨p, some text, none, none⟩])
    (hs : (generate_and_save_embeddings split embed db).1 = true) :
    ∀ e ∈ (generate_and_save_embeddings split embed db).2,
      ∃ p text vecs,
        ¬(text = "") ∧ embedAll embed (split text) = some vecs ∧
        e.2.rows = chunkRows p text (split text) vecs ∧
        e.2.rows.length = (split text).length ∧
        (∀ r ∈ e.2.rows, r.chunk_text.isSome ∧ r.embeddings.isSome ∧ r.id ≠ p) ∧
        (∀ r ∈ e.2.rows, r.raw_text ≠ none → r.id = new_id p 0 ∧ r.raw_text = some text) := by
  induction db with
  | nil =>
    intro e he
    simp [generate_and_save_embeddings, generateGo] at he
  | cons et rest ih =>
    obtain ⟨n, t⟩ := et
    obtain ⟨p, text, htext, hrows⟩ := hdb (n, t) (by simp)
    have hdocs : docsOf t.rows = [(p, some text)] := by rw [hrows]; rfl
    cases hv : embedAll embed (split text) with
    | none =>
      exfalso
      have hpr : processDocs split embed (docsOf t.rows) t.rows = (false, t.rows) := by
        rw [hdocs, hrows]
        simp [processDocs, htext, hv]
      rw [generate_and_save_embeddings, generateGo, hpr] at hs
      simp at hs
    | some vecs =>
      have hpr : processDocs split embed (docsOf t.rows) t.rows
          = (true, chunkRows p text (split text) vecs) := by
        rw [hdocs, hrows]
        exact processDocs_single_placeholder split embed p text htext vecs hv
      have hlenv : vecs.length = (split text).length := embedAll_length embed _ _ hv
      have hgen : generate_and_save_embeddings split embed ((n, t) :: rest)
          = ((generateGo split embed rest).1,
             (n, ⟨t.hasChunkText, t.hasEmbeddings, chunkRows p text (split text) vecs⟩)
               :: (generateGo split embed rest).2) := by
        rw [generate_and_save_embeddings, generateGo, hpr]
        rfl
      rw [hgen] at hs ⊢
      intro e he
      rcases List.mem_cons.mp he with he | he
      · refine ⟨p, text, vecs, htext, hv, by rw [he], ?_, ?_, ?_⟩
        · rw [he]
          show (chunkRows p text (split text) vecs).length = (split text).length
          rw [chunkRows, chunkRowsAux_length, List.length_zip, hlenv, Nat.min_self]
        · intro r hr
          rw [he] at hr
          obtain ⟨i, cv, _, _, hreq⟩ := chunkRowsAux_mem p text 0 _ r hr
          rw [hreq]
          refine ⟨by simp, by simp, ?_⟩
          show new_id p i ≠ p
          rw [new_id]
          omega
        · intro r hr hraw
          rw [he] at hr
          obtain ⟨i, cv, _, _, hreq⟩ := chunkRowsAux_mem p text 0 _ r hr
          rw [hreq] at hraw ⊢
          by_cases hi : i = 0
          · rw [hi]
            exact ⟨rfl, by simp⟩
          · exfalso
            apply hraw
            simp [hi]
      · exact ih (fun x hx => hdb x (by simp [hx])) hs e he

/-- C1 counterexample: `generate_and_save_embeddings` succeeds on a
one-placeholder collection, yet the resulting collection still contains a
row holding the document's raw text (the first chunk row, database.py
line 231), refuting the claim that no remaining row holds `raw_text`. -/
theorem generate_retains_raw_text_cex :
    (generate_and_save_embeddings exSplit exEmbed exDB1).1 = true ∧
    ∃ e ∈ (generate_and_save_embeddings exSplit exEmbed exDB1).2,
      ∃ r ∈ e.2.rows, r.chunk_text.isSome ∧ r.embeddings.isSome ∧
        r.raw_text = some "hello" := by decide

/-- The collection that the ingestion pass produces from `exDB1`. -/
def exT1 : Table Int :=
  ⟨true, true, [⟨10001, some "hello", some "hello", some [1]⟩]⟩

/-- Witness for `generate_success_final_rows` at the one entry of the
result of ingesting `exDB1` with the one-chunk splitter and the constant
embedder. -/
theorem generate_success_final_rows_witness :
    ∃ p text vecs,
      ¬(text = "") ∧ embedAll exEmbed (exSplit text) = some vecs ∧
      exT1.rows = chunkRows p text (exSplit text) vecs ∧
      exT1.rows.length = (exSplit text).length ∧
      (∀ r ∈ exT1.rows, r.chunk_text.isSome ∧ r.embeddings.isSome ∧ r.id ≠ p) ∧
      (∀ r ∈ exT1.rows, r.raw_text ≠ none → r.id = new_id p 0 ∧ r.raw_text = some text) :=
  generate_success_final_rows exSplit exEmbed exDB1
    (by
      intro e he
      simp only [exDB1, List.mem_singleton] at he
      rw [he]
      exact ⟨1, "hello", by decide, rfl⟩)
    (by decide)
    ("t", exT1)
    (by decide)

/- =========================== C2 =========================== -/

/-- C2 (amended): the single try/except around the whole loop of
`generate_and_save_embeddings` (database.py lines 194-247) means an
embedding failure in one collection stops the pass: collections that were
processed before the failing one remain fully processed, the pass returns
False, and the failing collection keeps only its per-document committed
changes while all later collections are left untouched. -/
theorem generate_failure_isolates {α : Type} (split : String → List String)
    (embed : String → Option (List α)) (pre : DB α) (n : String) (t : Table α)
    (rest : DB α)
    (hpre : ∀ e ∈ pre, (processDocs split embed (docsOf e.2.rows) e.2.rows).1 = true)
    (hfail : (processDocs split embed (docsOf t.rows) t.rows).1 = false) :
    generate_and_save_embeddings split embed (pre ++ (n, t) :: rest)
      = (false,
          pre.map (fun e => (e.1, ⟨e.2.hasChunkText, e.2.hasEmbeddings,
            (processDocs split embed (docsOf e.2.rows) e.2.rows).2⟩))
          ++ (n, ⟨t.hasChunkText, t.hasEmbeddings,
              (processDocs split embed (docsOf t.rows) t.rows).2⟩) :: rest) := by
  induction pre with
  | nil =>
    simp only [List.nil_append, List.map_nil]
    rw [generate_and_save_embeddings, generateGo]
    simp [hfail]
  | cons e pre ih =>
    obtain ⟨m, u⟩ := e
    have he : (processDocs split embed (docsOf u.rows) u.rows).1 = true :=
      hpre (m, u) (by simp)
    have hih := ih (fun x hx => hpre x (by simp [hx]))
    rw [generate_and_save_embeddings] at hih
    rw [List.cons_append, generate_and_save_embeddings, generateGo]
    simp [he, hih]

/-- C2 counterexample: with two saved collections `a` and `b` and an
embedding service that fails only on `a`'s text, the pass reports failure
and collection `b` is left with an unembedded placeholder row — the
failure in `a` did abort the processing of `b`. -/
theorem generate_failure_aborts_cex :
    (generate_and_save_embeddings exSplit exEmbedFail exDB2).1 = false ∧
    ∃ e ∈ (generate_and_save_embeddings exSplit exEmbedFail exDB2).2,
      e.1 = "b" ∧ ∃ r ∈ e.2.rows, r.embeddings = none := by decide

/-- Collection processed before the failure in the witness of
`generate_failure_isolates`. -/
def exPre : DB Int := [("ok", ⟨true, true, [⟨1, some "y", none, none⟩]⟩)]

/-- Failing collection in the witness of `generate_failure_isolates`. -/
def exTblX : Table Int := ⟨true, true, [⟨1, some "x", none, none⟩]⟩

/-- Collection after the failure in the witness of
`generate_failure_isolates`. -/
def exRest : DB Int := [("c", ⟨true, true, [⟨1, some "z", none, none⟩]⟩)]

/-- Witness for `generate_failure_isolates` on a concrete three-collection
database whose middle collection fails to embed. -/
theorem generate_failure_isolates_witness :
    generate_and_save_embeddings exSplit exEmbedFail (exPre ++ ("a", exTblX) :: exRest)
      = (false,
          exPre.map (fun e => (e.1, ⟨e.2.hasChunkText, e.2.hasEmbeddings,
            (processDocs exSplit exEmbedFail (docsOf e.2.rows) e.2.rows).2⟩))
          ++ ("a", ⟨exTblX.hasChunkText, exTblX.hasEmbeddings,
              (processDocs exSplit exEmbedFail (docsOf exTblX.rows) exTblX.rows).2⟩)
            :: exRest) :=
  generate_failure_isolates exSplit exEmbedFail exPre "a" exTblX exRest
    (by decide) (by decide)

/- =========================== C9 =========================== -/

/-- The effect of a successful ingestion pass on one table. -/
def processTable {α : Type} (split : String → List String)
    (embed : String → Option (List α)) (t : Table α) : Table α :=
  ⟨t.hasChunkText, t.hasEmbeddings, (processDocs split embed (docsOf t.rows) t.rows).2⟩

theorem embedAll_total {α : Type} (f : String → List α) (cs : List String) :
    embedAll (fun s => some (f s)) cs = some (cs.map f) := by
  induction cs with
  | nil => rfl
  | cons c cs ih => simp [embedAll, ih]

theorem processDocs_total_flag {α : Type} (split : String → List String)
    (f : String → List α) :
    ∀ (docs : List (Nat × Option String)) (rows : List (Row α)),
      (processDocs split (fun s => some (f s)) docs rows).1 = true := by
  intro docs
  induction docs with
  | nil => intro rows; rfl
  | cons d docs ih =>
    intro rows
    obtain ⟨p, otext⟩ := d
    cases otext with
    | none =>
      show (processDocs split (fun s => some (f s)) ((p, none) :: docs) rows).1 = true
      rw [processDocs]
      exact ih rows
    | some text =>
      by_cases ht : text = ""
      · simp only [processDocs, ht, if_true]
        exact ih rows
      · simp only [processDocs, ht, if_false, embedAll_total]
        exact ih _

theorem generateGo_total {α : Type} (split : String → List String) (f : String → List α) :
    ∀ db : DB α, generateGo split (fun s => some (f s)) db
      = (true, db.map fun e => (e.1, processTable split (fun s => some (f s)) e.2)) := by
  intro db
  induction db with
  | nil => rfl
  | cons e rest ih =>
    obtain ⟨m, u⟩ := e
    rw [generateGo]
    simp [processDocs_total_flag, ih, processTable]

theorem lookup_map_value {α : Type} (g : Table α → Table α) :
    ∀ (db : DB α) (k : String),
      (db.map fun e => (e.1, g e.2)).lookup k = (db.lookup k).map g := by
  intro db k
  induction db with
  | nil => rfl
  | cons e rest ih =>
    obtain ⟨m, u⟩ := e
    cases h : k == m with
    | true => simp [List.lookup, h]
    | false => simp [List.lookup, h, ih]

theorem lookup_updateTable {α : Type} (db : DB α) (k : String) (f : Table α → Table α) :
    (updateTable db k f).lookup k = (db.lookup k).map f := by
  induction db with
  | nil => rfl
  | cons e rest ih =>
    obtain ⟨m, u⟩ := e
    simp only [updateTable, List.map_cons] at ih ⊢
    by_cases hm : m = k
    · rw [if_pos hm]
      subst hm
      simp [List.lookup]
    · rw [if_neg hm]
      have hk : (k == m) = false := beq_false_of_ne (fun h => hm h.symm)
      simp [List.lookup, hk, ih]

theorem lookup_append_singleton {α : Type} (db : DB α) (k : String) (t : Table α)
    (h : db.lookup k = none) :
    (db ++ [(k, t)]).lookup k = some t := by
  induction db with
  | nil => simp [List.lookup]
  | cons e rest ih =>
    obtain ⟨m, u⟩ := e
    cases hk : k == m with
    | true =>
      rw [List.lookup] at h
      rw [hk] at h
      simp at h
    | false =>
      rw [List.lookup] at h
      rw [hk] at h
      rw [List.cons_append, List.lookup, hk]
      exact ih h

theorem clear_insert {α : Type} (rows : List (Row α)) (text : String) :
    ((if rows.length > 0 then [] else rows)
      ++ [⟨nextRowId (if rows.length > 0 then [] else rows), some text, none, none⟩]
        : List (Row α))
      = [⟨1, some text, none, none⟩] := by
  cases rows with
  | nil => rfl
  | cons r rs => simp [nextRowId]

theorem lookup_updateTable_ne {α : Type} (db : DB α) (k key : String)
    (f : Table α → Table α) (hk : k ≠ key) :
    (updateTable db key f).lookup k = db.lookup k := by
  induction db with
  | nil => rfl
  | cons e rest ih =>
    obtain ⟨m, u⟩ := e
    simp only [updateTable, List.map_cons] at ih ⊢
    by_cases hm : m = key
    · rw [if_pos hm]
      have hkm : (k == m) = false := beq_false_of_ne (by rw [hm]; exact hk)
      simp [List.lookup, hkm, ih]
    · rw [if_neg hm]
      cases hkm : k == m
      · simp [List.lookup, hkm, ih]
      · simp [List.lookup, hkm]

theorem clearedInsert_eq {α : Type} (text : String) (t : Table α) :
    clearedInsert text t
      = ⟨t.hasChunkText, t.hasEmbeddings, [⟨1, some text, none, none⟩]⟩ := by
  rw [clearedInsert, clear_insert]

theorem create_none {α : Type} (db : DB α) (tn : String)
    (h : create_table_for_document db tn = none) :
    db.lookup (sanitiseStr tn) = none ∧ sanitiseStr tn = "" := by
  rw [create_table_for_document] at h
  cases hl : db.lookup (sanitiseStr tn) with
  | some u => rw [hl] at h; simp at h
  | none =>
    rw [hl] at h
    by_cases he : sanitiseStr tn = ""
    · exact ⟨rfl, he⟩
    · rw [if_neg he] at h
      simp at h

theorem create_of_lookup_some {α : Type} (db : DB α) (tn : String) (u : Table α)
    (h : db.lookup (sanitiseStr tn) = some u) :
    create_table_for_document db tn = some db := by
  rw [create_table_for_document, h]

theorem create_some_lookup {α : Type} (db : DB α) (tn : String) (db1 : DB α)
    (h : create_table_for_document db tn = some db1) :
    ∃ u, db1.lookup (sanitiseStr tn) = some u := by
  rw [create_table_for_document] at h
  cases hl : db.lookup (sanitiseStr tn) with
  | some u =>
    rw [hl] at h
    simp only [Option.some.injEq] at h
    exact ⟨u, by rw [← h]; exact hl⟩
  | none =>
    rw [hl] at h
    by_cases he : sanitiseStr tn = ""
    · rw [if_pos he] at h
      exact absurd h (by simp)
    · rw [if_neg he] at h
      simp only [Option.some.injEq] at h
      exact ⟨⟨true, true, []⟩, by rw [← h]; exact lookup_append_singleton db _ _ hl⟩

/-- A document with NULL or empty raw text is skipped without touching the
rows, so a docs list of only such entries leaves the table unchanged. -/
theorem processDocs_skip {α : Type} (split : String → List String)
    (embed : String → Option (List α)) :
    ∀ (docs : List (Nat × Option String)) (rows : List (Row α)),
      (∀ d ∈ docs, d.2 = none ∨ d.2 = some "") →
      processDocs split embed docs rows = (true, rows) := by
  intro docs
  induction docs with
  | nil => intro rows _; rfl
  | cons d docs ih =>
    intro rows hd
    obtain ⟨p, otext⟩ := d
    rcases hd (p, otext) (by simp) with h | h
    · simp only at h
      subst h
      rw [processDocs]
      exact ih rows (fun x hx => hd x (by simp [hx]))
    · simp only at h
      subst h
      simp only [processDocs, if_pos rfl]
      exact ih rows (fun x hx => hd x (by simp [hx]))

/-- After a successful pass over a snapshot of the pending documents, any
row still lacking an embedding has NULL or empty raw text. -/
theorem processDocs_emb_none {α : Type} (split : String → List String)
    (f : String → List α) :
    ∀ (docs : List (Nat × Option String)) (rows : List (Row α)),
      (∀ r ∈ rows, r.embeddings = none →
        r.raw_text = none ∨ r.raw_text = some "" ∨ (r.id, r.raw_text) ∈ docs) →
      ∀ r ∈ (processDocs split (fun s => some (f s)) docs rows).2,
        r.embeddings = none → r.raw_text = none ∨ r.raw_text = some "" := by
  intro docs
  induction docs with
  | nil =>
    intro rows hcov r hr hemb
    rcases hcov r hr hemb with h | h | h
    · exact Or.inl h
    · exact Or.inr h
    · simp at h
  | cons d docs ih =>
    intro rows hcov r hr hemb
    obtain ⟨p, otext⟩ := d
    cases otext with
    | none =>
      rw [processDocs] at hr
      refine ih rows ?_ r hr hemb
      intro r' hr' he'
      rcases hcov r' hr' he' with h | h | h
      · exact Or.inl h
      · exact Or.inr (Or.inl h)
      · rcases List.mem_cons.mp h with h | h
        · exact Or.inl (congrArg Prod.snd h)
        · exact Or.inr (Or.inr h)
    | some text =>
      by_cases ht : text = ""
      · subst ht
        simp only [processDocs, if_pos rfl] at hr
        refine ih rows ?_ r hr hemb
        intro r' hr' he'
        rcases hcov r' hr' he' with h | h | h
        · exact Or.inl h
        · exact Or.inr (Or.inl h)
        · rcases List.mem_cons.mp h with h | h
          · exact Or.inr (Or.inl (congrArg Prod.snd h))
          · exact Or.inr (Or.inr h)
      · simp only [processDocs, ht, if_false, embedAll_total] at hr
        refine ih _ ?_ r hr hemb
        intro r' hr' he'
        have hr'' := List.mem_filter.mp hr'
        have hid : r'.id ≠ p := by simpa using hr''.2
        rcases List.mem_append.mp hr''.1 with hrow | hchunk
        · rcases hcov r' hrow he' with h | h | h
          · exact Or.inl h
          · exact Or.inr (Or.inl h)
          · rcases List.mem_cons.mp h with h | h
            · exact absurd (congrArg Prod.fst h) hid
            · exact Or.inr (Or.inr h)
        · obtain ⟨i, cv, _, _, hreq⟩ := chunkRowsAux_mem p text 0 _ r' hchunk
          rw [hreq] at he'
          simp at he'

/-- The per-table effect of a successful pass is idempotent: a second pass
finds only skippable pending rows. -/
theorem processTable_idem {α : Type} (split : String → List String)
    (f : String → List α) (t : Table α) :
    processTable split (fun s => some (f s)) (processTable split (fun s => some (f s)) t)
      = processTable split (fun s => some (f s)) t := by
  have hcov : ∀ r ∈ t.rows, r.embeddings = none →
      r.raw_text = none ∨ r.raw_text = some "" ∨ (r.id, r.raw_text) ∈ docsOf t.rows := by
    intro r hr he
    refine Or.inr (Or.inr ?_)
    rw [docsOf]
    exact List.mem_map.mpr ⟨r, List.mem_filter.mpr ⟨hr, by simp [he]⟩, rfl⟩
  have hR := processDocs_emb_none split f (docsOf t.rows) t.rows hcov
  have hskip : ∀ d ∈ docsOf
      (processDocs split (fun s => some (f s)) (docsOf t.rows) t.rows).2,
      d.2 = none ∨ d.2 = some "" := by
    intro d hd
    rw [docsOf] at hd
    obtain ⟨r, hr, hd'⟩ := List.mem_map.mp hd
    have hmem := List.mem_filter.mp hr
    have he : r.embeddings = none := by simpa [Option.isNone_iff_eq_none] using hmem.2
    rw [← hd']
    exact hR r hmem.1 he
  show processTable split (fun s => some (f s))
      ⟨t.hasChunkText, t.hasEmbeddings,
        (processDocs split (fun s => some (f s)) (docsOf t.rows) t.rows).2⟩
    = ⟨t.hasChunkText, t.hasEmbeddings,
        (processDocs split (fun s => some (f s)) (docsOf t.rows) t.rows).2⟩
  rw [processTable, processDocs_skip split _ _ _ hskip]

/-- C9: reindexing is idempotent for every document name.  Saving the same
unchanged document and running the ingestion pass a second time (with the
same splitter and a deterministic, always-available embedder) leaves the
document's collection exactly as the first pass left it — including the
failure paths, where the re-sanitisation inside `create_table_for_document`
makes both passes fail identically with no placeholder inserted. -/
theorem reindex_idempotent {α : Type} (split : String → List String)
    (embed : String → List α) (db : DB α) (name text : String) :
    ((generate_and_save_embeddings split (fun s => some (embed s))
        (save_document
          (generate_and_save_embeddings split (fun s => some (embed s))
            (save_document db name text).2).2 name text).2).2).lookup (sanitiseStr name)
      = ((generate_and_save_embeddings split (fun s => some (embed s))
          (save_document db name text).2).2).lookup (sanitiseStr name) := by
  set g : String × Table α → String × Table α :=
    fun e => (e.1, processTable split (fun s => some (embed s)) e.2) with hg
  have F0 : ∀ d : DB α,
      (generate_and_save_embeddings split (fun s => some (embed s)) d).2 = d.map g := by
    intro d
    rw [generate_and_save_embeddings, generateGo_total, hg]
  have F2 : ∀ d : DB α, (d.map g).map g = d.map g := by
    intro d
    rw [List.map_map]
    apply List.map_congr_left
    intro e _
    rw [hg]
    simp [Function.comp, processTable_idem]
  have FL : ∀ (d : DB α) (k : String), (d.map g).lookup k
      = (d.lookup k).map (processTable split (fun s => some (embed s))) := by
    intro d k
    rw [hg]
    exact lookup_map_value _ d k
  cases hc1 : create_table_for_document db (sanitiseStr name) with
  | none =>
    obtain ⟨hl2, he2⟩ := create_none db (sanitiseStr name) hc1
    have e1 : (save_document db name text).2 = db := by
      simp only [save_document, hc1]
    have hl2' : (db.map g).lookup (sanitiseStr (sanitiseStr name)) = none := by
      rw [FL, hl2]
      rfl
    have hc1' : create_table_for_document (db.map g) (sanitiseStr name) = none := by
      rw [create_table_for_document, hl2']
      simp [he2]
    have e3 : (save_document (db.map g) name text).2 = db.map g := by
      simp only [save_document, hc1']
    rw [e1, F0 db, e3, F0, F2]
  | some db1 =>
    obtain ⟨u2, hu2⟩ := create_some_lookup db (sanitiseStr name) db1 hc1
    cases hl1 : db1.lookup (sanitiseStr name) with
    | none =>
      have e1 : (save_document db name text).2 = db1 := by
        simp only [save_document, hc1, hl1]
      have hl2' : (db1.map g).lookup (sanitiseStr (sanitiseStr name))
          = some (processTable split (fun s => some (embed s)) u2) := by
        rw [FL, hu2]
        rfl
      have hc1' : create_table_for_document (db1.map g) (sanitiseStr name)
          = some (db1.map g) := create_of_lookup_some _ _ _ hl2'
      have hl1' : (db1.map g).lookup (sanitiseStr name) = none := by
        rw [FL, hl1]
        rfl
      have e3 : (save_document (db1.map g) name text).2 = db1.map g := by
        simp only [save_document, hc1', hl1']
      rw [e1, F0 db1, e3, F0, F2]
    | some t =>
      have e1 : (save_document db name text).2
          = updateTable db1 (sanitiseStr name) (clearedInsert text) := by
        simp only [save_document, hc1, hl1]
      have hS1 : (updateTable db1 (sanitiseStr name) (clearedInsert text)).lookup
          (sanitiseStr name)
          = some ⟨t.hasChunkText, t.hasEmbeddings, [⟨1, some text, none, none⟩]⟩ := by
        rw [lookup_updateTable, hl1, Option.map_some', clearedInsert_eq]
      have h1g : ((updateTable db1 (sanitiseStr name) (clearedInsert text)).map g).lookup
          (sanitiseStr name)
          = some (processTable split (fun s => some (embed s))
              ⟨t.hasChunkText, t.hasEmbeddings, [⟨1, some text, none, none⟩]⟩) := by
        rw [FL, hS1]
        rfl
      obtain ⟨u', hu'⟩ : ∃ u',
          (updateTable db1 (sanitiseStr name) (clearedInsert text)).lookup
            (sanitiseStr (sanitiseStr name)) = some u' := by
        by_cases hss : sanitiseStr (sanitiseStr name) = sanitiseStr name
        · rw [hss]
          exact ⟨_, hS1⟩
        · rw [lookup_updateTable_ne _ _ _ _ hss]
          exact ⟨u2, hu2⟩
      have hd1l2 : (((updateTable db1 (sanitiseStr name) (clearedInsert text)).map g).lookup
          (sanitiseStr (sanitiseStr name)))
          = some (processTable split (fun s => some (embed s)) u') := by
        rw [FL, hu']
        rfl
      have hc1' : create_table_for_document
          ((updateTable db1 (sanitiseStr name) (clearedInsert text)).map g)
          (sanitiseStr name)
          = some ((updateTable db1 (sanitiseStr name) (clearedInsert text)).map g) :=
        create_of_lookup_some _ _ _ hd1l2
      have e3 : (save_document
          ((updateTable db1 (sanitiseStr name) (clearedInsert text)).map g) name text).2
          = updateTable ((updateTable db1 (sanitiseStr name) (clearedInsert text)).map g)
              (sanitiseStr name) (clearedInsert text) := by
        simp only [save_document, hc1', h1g]
      have hS1' : (updateTable
            ((updateTable db1 (sanitiseStr name) (clearedInsert text)).map g)
            (sanitiseStr name) (clearedInsert text)).lookup (sanitiseStr name)
          = some ⟨t.hasChunkText, t.hasEmbeddings, [⟨1, some text, none, none⟩]⟩ := by
        rw [lookup_updateTable, h1g, Option.map_some', clearedInsert_eq]
        rfl
      rw [e1, F0 (updateTable db1 (sanitiseStr name) (clearedInsert text)),
        e3, F0, FL, hS1', Option.map_some', h1g]

/- ===================================================================
   Similarity search (similarity_search.py): cosine_similarity and
   query_similarity, with vectors as lists of real numbers.
   =================================================================== -/

/-- `np.dot` on two equal-length one-dimensional arrays. -/
noncomputable def dotV (a b : List ℝ) : ℝ :=
  ((a.zip b).map fun p => p.1 * p.2).sum

/-- `np.linalg.norm`: the Euclidean norm. -/
noncomputable def normV (a : List ℝ) : ℝ :=
  Real.sqrt (dotV a a)

open Classical in
/-- `cosine_similarity` (similarity_search.py lines 126-152): dot product
over the product of norms, with 0.0 returned when either norm is zero. -/
noncomputable def cosine_similarity (v1 v2 : List ℝ) : ℝ :=
  if normV v1 = 0 ∨ normV v2 = 0 then 0
  else dotV v1 v2 / (normV v1 * normV v2)

theorem dotV_cons (x y : ℝ) (a b : List ℝ) :
    dotV (x :: a) (y :: b) = x * y + dotV a b := by
  simp [dotV]

theorem dotV_comm : ∀ a b : List ℝ, dotV a b = dotV b a := by
  intro a
  induction a with
  | nil => intro b; cases b <;> rfl
  | cons x a ih =>
    intro b
    cases b with
    | nil => rfl
    | cons y b => rw [dotV_cons, dotV_cons, mul_comm, ih]

theorem dotV_self_nonneg : ∀ a : List ℝ, 0 ≤ dotV a a := by
  intro a
  induction a with
  | nil => exact le_refl _
  | cons x a ih =>
    rw [dotV_cons]
    exact add_nonneg (mul_self_nonneg x) ih

theorem dotV_self_pos (a : List ℝ) (h : ∃ x ∈ a, x ≠ 0) : 0 < dotV a a := by
  induction a with
  | nil => simp at h
  | cons x a ih =>
    rw [dotV_cons]
    obtain ⟨y, hy, hy0⟩ := h
    rcases List.mem_cons.mp hy with hy | hy
    · subst hy
      exact add_pos_of_pos_of_nonneg (mul_self_pos.mpr hy0) (dotV_self_nonneg a)
    · exact add_pos_of_nonneg_of_pos (mul_self_nonneg x) (ih ⟨y, hy, hy0⟩)

/-- C6: cosine similarity is symmetric on equal-length vectors, equals 1 on
any vector with a nonzero component, and is defined as 0 (not an error)
whenever either argument has zero norm. -/
theorem cosine_similarity_props (a b : List ℝ) :
    (a.length = b.length → cosine_similarity a b = cosine_similarity b a) ∧
    ((∃ x ∈ a, x ≠ 0) → cosine_similarity a a = 1) ∧
    (normV a = 0 → cosine_similarity a b = 0) ∧
    (normV b = 0 → cosine_similarity a b = 0) := by
  refine ⟨?_, ?_, ?_, ?_⟩
  · intro _
    by_cases h : normV a = 0 ∨ normV b = 0
    · rw [cosine_similarity, if_pos h, cosine_similarity, if_pos (Or.symm h)]
    · rw [cosine_similarity, if_neg h, cosine_similarity,
        if_neg (fun hc => h (Or.symm hc)), dotV_comm, mul_comm]
  · intro h
    have hd : 0 < dotV a a := dotV_self_pos a h
    have hn : normV a ≠ 0 := by
      rw [normV]
      exact ne_of_gt (Real.sqrt_pos.mpr hd)
    rw [cosine_similarity, if_neg (by tauto)]
    rw [normV, Real.mul_self_sqrt (dotV_self_nonneg a)]
    exact div_self (ne_of_gt hd)
  · intro h
    rw [cosine_similarity, if_pos (Or.inl h)]
  · intro h
    rw [cosine_similarity, if_pos (Or.inr h)]

/-- Witness for `cosine_similarity_props` at concrete vectors. -/
theorem cosine_similarity_props_witness :
    cosine_similarity ([1, 0] : List ℝ) [0, 1] = cosine_similarity [0, 1] [1, 0] ∧
    cosine_similarity ([1] : List ℝ) [1] = 1 ∧
    cosine_similarity ([0] : List ℝ) [1] = 0 ∧
    cosine_similarity ([1] : List ℝ) [0] = 0 :=
  ⟨(cosine_similarity_props [1, 0] [0, 1]).1 rfl,
   (cosine_similarity_props [1] [1]).2.1 ⟨1, by simp, one_ne_zero⟩,
   (cosine_similarity_props [0] [1]).2.2.1 (by simp [normV, dotV]),
   (cosine_similarity_props [1] [0]).2.2.2 (by simp [normV, dotV])⟩

/-- A search result, as the fields of the returned langchain `Document`:
`page_content`, the `similarity` metadata and the `source` table. -/
structure SearchDoc where
  page_content : String
  similarity : ℝ
  source : String

/-- The tables `query_similarity` scans: the sanitized requested table, or
every table when none is requested (similarity_search.py lines 67-72;
`if table_name:` also treats an empty name as no request). -/
def searchEntries {α : Type} (db : DB α) (table_name : Option String) : DB α :=
  match table_name with
  | some nm => if nm = "" then db else db.filter fun e => e.1 = sanitiseStr nm
  | none => db

theorem searchEntries_subset {α : Type} (db : DB α) (tn : Option String) :
    ∀ e ∈ searchEntries db tn, e ∈ db := by
  intro e he
  rcases tn with _ | nm
  · exact he
  · rw [searchEntries] at he
    by_cases h : nm = ""
    · rw [if_pos h] at he
      exact he
    · rw [if_neg h] at he
      exact (List.mem_filter.mp he).1

/-- The `(similarity, chunk_text, table)` triples collected by the scan
loop (similarity_search.py lines 77-102): tables missing either expected
column are skipped, as are rows with a NULL or empty chunk text or byte
payload; the stored payload decodes to the stored vector. -/
noncomputable def scoredRows (qv : List ℝ) (db : DB ℝ) : List (ℝ × String × String) :=
  db.flatMap fun e =>
    if e.2.hasChunkText && e.2.hasEmbeddings then
      e.2.rows.filterMap fun r =>
        match r.chunk_text, r.embeddings with
        | some c, some v =>
          if c ≠ "" ∧ v ≠ [] then some (cosine_similarity qv v, c, e.1) else none
        | _, _ => none
    else []

/-- `query_similarity` (similarity_search.py lines 39-119) on an
already-embedded query vector: collect the scored triples, sort by
descending similarity (Python's stable `list.sort(reverse=True)` on the
score key), keep the first `top_k` and package them as documents. -/
noncomputable def query_similarity (qv : List ℝ) (db : DB ℝ) (top_k : Nat)
    (table_name : Option String) : List SearchDoc :=
  let sorted := (scoredRows qv (searchEntries db table_name)).mergeSort
    fun a b => decide (b.1 ≤ a.1)
  (sorted.take top_k).map fun r => ⟨r.2.1, r.1, r.2.2⟩

theorem scoredRows_of_no_rows (qv : List ℝ) (db : DB ℝ)
    (h : ∀ e ∈ db, e.2.rows = []) : scoredRows qv db = [] := by
  rw [scoredRows, List.flatMap_eq_nil_iff]
  intro e he
  rw [h e he]
  cases e.2.hasChunkText && e.2.hasEmbeddings <;> simp

/-- C7: `query_similarity` returns at most `top_k` documents, sorted by
descending similarity; the result is the `top_k`-prefix of a descending
sort of all scored rows (so it consists of the highest-scoring ones); and
an empty store yields an empty result rather than an error. -/
theorem query_similarity_ranked (qv : List ℝ) (db : DB ℝ) (top_k : Nat)
    (tn : Option String) :
    (query_similarity qv db top_k tn).length ≤ top_k ∧
    (query_similarity qv db top_k tn).Pairwise
      (fun d d' => d'.similarity ≤ d.similarity) ∧
    (∃ full : List (ℝ × String × String),
      full.Perm (scoredRows qv (searchEntries db tn)) ∧
      full.Pairwise (fun x y => y.1 ≤ x.1) ∧
      query_similarity qv db top_k tn
        = (full.take top_k).map fun r => ⟨r.2.1, r.1, r.2.2⟩) ∧
    ((∀ e ∈ db, e.2.rows = []) → query_similarity qv db top_k tn = []) := by
  have htrans : ∀ a b c : ℝ × String × String,
      decide (b.1 ≤ a.1) = true → decide (c.1 ≤ b.1) = true →
        decide (c.1 ≤ a.1) = true := by
    intro a b c h1 h2
    simp only [decide_eq_true_eq] at h1 h2 ⊢
    exact le_trans h2 h1
  have htotal : ∀ a b : ℝ × String × String,
      (decide (b.1 ≤ a.1) || decide (a.1 ≤ b.1)) = true := by
    intro a b
    rcases le_total b.1 a.1 with h | h <;> simp [h]
  have hsorted := List.sorted_mergeSort htrans htotal
    (scoredRows qv (searchEntries db tn))
  refine ⟨?_, ?_, ?_, ?_⟩
  · rw [query_similarity, List.length_map]
    exact List.length_take_le _ _
  · rw [query_similarity]
    rw [List.pairwise_map]
    refine List.Pairwise.imp ?_
      (List.Pairwise.sublist (List.take_sublist _ _) hsorted)
    intro x y h
    simpa using h
  · exact ⟨_, List.mergeSort_perm _ _,
      hsorted.imp (by intro x y h; simpa using h), rfl⟩
  · intro h
    have hsc : scoredRows qv (searchEntries db tn) = [] := by
      apply scoredRows_of_no_rows
      intro e he
      exact h e (searchEntries_subset db tn e he)
    rw [query_similarity, hsc]
    simp

/-- One already-materialized collection, used by the search witnesses. -/
noncomputable def exQDB : DB ℝ :=
  [("t", ⟨true, true, [⟨10001, some "hello", some "hello", some [1]⟩]⟩)]

/-- Witness for `query_similarity_ranked`: the empty store yields an empty
ranked list for `top_k = 3`. -/
theorem query_similarity_ranked_witness :
    query_similarity [1] [] 3 none = [] :=
  (query_similarity_ranked [1] [] 3 none).2.2.2 (by simp)

/-- C10: every document returned by `query_similarity` originates from a
row of a scanned table that has both the `chunk_text` and `embeddings`
columns, and whose chunk text and embedding payload are both non-NULL and
nonempty; its fields are that row's chunk text, the cosine score of its
stored vector, and the table name. -/
theorem query_similarity_provenance (qv : List ℝ) (db : DB ℝ) (top_k : Nat)
    (tn : Option String) (d : SearchDoc)
    (hd : d ∈ query_similarity qv db top_k tn) :
    ∃ e ∈ db, e.2.hasChunkText = true ∧ e.2.hasEmbeddings = true ∧
      ∃ r ∈ e.2.rows, r.chunk_text = some d.page_content ∧ d.page_content ≠ "" ∧
        ∃ v, r.embeddings = some v ∧ v ≠ [] ∧
          d.similarity = cosine_similarity qv v ∧ d.source = e.1 := by
  rw [query_similarity] at hd
  obtain ⟨x, hx, hxd⟩ := List.mem_map.mp hd
  have hx1 : x ∈ (scoredRows qv (searchEntries db tn)).mergeSort
      fun a b => decide (b.1 ≤ a.1) := List.mem_of_mem_take hx
  have hx2 : x ∈ scoredRows qv (searchEntries db tn) :=
    (List.mergeSort_perm _ _).mem_iff.mp hx1
  rw [scoredRows] at hx2
  obtain ⟨e, he, hxe⟩ := List.mem_flatMap.mp hx2
  have hedb : e ∈ db := searchEntries_subset db tn e he
  cases hflag : e.2.hasChunkText && e.2.hasEmbeddings with
  | false => rw [hflag] at hxe; simp at hxe
  | true =>
    rw [hflag] at hxe
    simp only [if_true] at hxe
    obtain ⟨r, hr, hrx⟩ := List.mem_filterMap.mp hxe
    obtain ⟨hf1, hf2⟩ := Bool.and_eq_true_iff.mp hflag
    refine ⟨e, hedb, hf1, hf2, r, hr, ?_⟩
    split at hrx
    · rename_i c v hct hemb
      split at hrx
      · rename_i hcv
        have hxeq : x = (cosine_similarity qv v, c, e.1) := (Option.some.inj hrx).symm
        subst hxd
        refine ⟨?_, ?_, v, ?_, hcv.2, ?_, ?_⟩
        · rw [hct, hxeq]
        · rw [hxeq]
          exact hcv.1
        · rw [hemb]
        · rw [hxeq]
        · rw [hxeq]
      · simp at hrx
    · simp at hrx

/-- Witness for `query_similarity_provenance` on a one-row store. -/
theorem query_similarity_provenance_witness :
    ∃ e ∈ exQDB, e.2.hasChunkText = true ∧ e.2.hasEmbeddings = true ∧
      ∃ r ∈ e.2.rows, r.chunk_text = some "hello" ∧ ("hello" : String) ≠ "" ∧
        ∃ v, r.embeddings = some v ∧ v ≠ [] ∧
          cosine_similarity [1] [1] = cosine_similarity [1] v ∧ ("t" : String) = e.1 := by
  have hd : (⟨"hello", cosine_similarity [1] [1], "t"⟩ : SearchDoc)
      ∈ query_similarity [1] exQDB 3 none := by
    rw [query_similarity]
    have hsc : scoredRows [1] exQDB = [(cosine_similarity [1] [1], "hello", "t")] := by
      rw [scoredRows]
      simp [exQDB]
    show _ ∈ (List.map _ _)
    rw [show searchEntries exQDB none = exQDB from rfl, hsc]
    simp
  exact query_similarity_provenance [1] exQDB 3 none
    ⟨"hello", cosine_similarity [1] [1], "t"⟩ hd

/- ===================================================================
   Conversational orchestrator: QAChain.query (qa.py lines 143-167)
   =================================================================== -/

/-- One turn of the conversation history (`HumanMessage` / `AIMessage`). -/
inductive ChatMsg where
  | human (text : String)
  | ai (text : String)
deriving DecidableEq

/-- `QAChain.query` (qa.py lines 143-167).  The chain invocation
`self.qa_chain.invoke(question)` — retrieval, query embedding and LLM
completion — is the `invoke` parameter; an exception anywhere inside it is
an `Except.error`.  On success the method appends the human turn and then
the assistant turn to the history and returns the answer; on failure it
returns the formatted error string and the history is not touched (the
appends only run after a successful invocation). -/
def QAChain_query (invoke : String → Except String String)
    (chat_history : List ChatMsg) (question : String) : String × List ChatMsg :=
  match invoke question with
  | Except.ok answer =>
    (answer, chat_history ++ [ChatMsg.human question, ChatMsg.ai answer])
  | Except.error e =>
    ("Sorry, an error occurred: Error processing query: " ++ e, chat_history)

/-- C8: if any step of `QAChain.query` fails, the chat history is returned
exactly as it was (no partial turns) together with an error description
instead of an exception; on success exactly the human turn followed by the
assistant turn is appended. -/
theorem qa_query_history (invoke : String → Except String String)
    (hist : List ChatMsg) (q : String) :
    (∀ e, invoke q = Except.error e →
      QAChain_query invoke hist q
        = ("Sorry, an error occurred: Error processing query: " ++ e, hist)) ∧
    (∀ a, invoke q = Except.ok a →
      QAChain_query invoke hist q
        = (a, hist ++ [ChatMsg.human q, ChatMsg.ai a])) := by
  constructor
  · intro e he
    rw [QAChain_query, he]
  · intro a ha
    rw [QAChain_query, ha]

/-- Witness for `qa_query_history`: a failing and a succeeding invocation
on concrete histories. -/
theorem qa_query_history_witness :
    QAChain_query (fun _ => Except.error "boom") [ChatMsg.human "hi"] "q"
      = ("Sorry, an error occurred: Error processing query: boom", [ChatMsg.human "hi"]) ∧
    QAChain_query (fun _ => Except.ok "ans") [] "q"
      = ("ans", [ChatMsg.human "q", ChatMsg.ai "ans"]) :=
  ⟨(qa_query_history (fun _ => Except.error "boom") [ChatMsg.human "hi"] "q").1 "boom" rfl,
   (qa_query_history (fun _ => Except.ok "ans") [] "q").2 "ans" rfl⟩

end Docuverse
